import Mathlib

/-!
Verification of the rust-fil-proofs core against its specification.

This file gives a shallow embedding, in Lean 4, of the parts of the
repository that the claims concern:

* the bucket-sampling DRG parent generator
  (storage-proofs/src/drgraph.rs, BucketGraph::parents);
* the Merkle tree builder (Graph::merkle_tree_aux in drgraph.rs, with the
  external merkletree crate build modelled from the spec);
* the digest hasher domain, kdf and node hash
  (storage-proofs/src/hasher/digest.rs);
* the Pedersen Merkle-Damgard digests, byte- and bit-oriented
  (src/crypto/pedersen.rs), with the elliptic-curve compression abstract;
* the ParallelProofOfRetrievability circuit
  (storage-proofs/src/circuit/ppor/mod.rs), with the bellman and
  sapling_crypto gadget semantics modelled from the spec.

Machine integers are modelled as Nat with explicit masking where the code
masks; fallible code returns Option or an explicit result type with a
separate constructor for panics.
-/

namespace FilProofs

/-! ## Byte and bit utilities

Bytes are Nat values (with explicit < 256 hypotheses where the proofs need
them); bit vectors are List Bool, least-significant bit of each byte first.
The LSB-first convention is pinned by the bitvec LittleEndian ordering used
in src/crypto/pedersen.rs (see its test_bit_vec_le).
-/

/-- Modelled from the spec: bytes_into_bits from util.rs (not under src).
Expands each byte into its 8 bits, least significant first, matching the
bitvec LittleEndian convention checked by test_bit_vec_le in pedersen.rs. -/
def byteBits (b : Nat) : List Bool :=
  (List.range 8).map (fun j => b.testBit j)

/-- Modelled from the spec: bytes_into_bits over a whole byte string. -/
def bytesToBits (bs : List Nat) : List Bool :=
  (bs.map byteBits).flatten

/-- Reassemble one byte from 8 bits, least significant first. -/
def bitsToByte (bits : List Bool) : Nat :=
  bits.foldr (fun b acc => (if b then 1 else 0) + 2 * acc) 0

/-- Split a list into chunks of n elements (the last chunk may be short),
as slice::chunks does in Rust. -/
def listChunks {α : Type} : Nat → List α → List (List α)
  | _, [] => []
  | 0, l => [l]
  | n + 1, x :: xs => (x :: xs).take (n + 1) :: listChunks (n + 1) ((x :: xs).drop (n + 1))
termination_by _ l => l.length
decreasing_by simp [List.length_drop]; omega

/-- Modelled from the spec: bits_to_bytes from util.rs (not under src),
packing each group of 8 bits LSB-first into a byte. -/
def bitsToBytes (bits : List Bool) : List Nat :=
  (listChunks 8 bits).map bitsToByte

/-- The 8 little-endian bytes of a 64-bit word, as LittleEndian::write_u64
produces them. -/
def u64LE (x : Nat) : List Nat :=
  (List.range 8).map (fun k => x / 2 ^ (8 * k) % 256)

/-- Little-endian value of a byte string. -/
def fromLEBytes : List Nat → Nat
  | [] => 0
  | b :: rest => b + 256 * fromLEBytes rest

/-! ## Bucket-sampling DRG generator (drgraph.rs, BucketGraph::parents)

The per-node randomness in the source is ChaChaRng seeded with
seed[0..7] concatenated with the node index; it is a pure function of
(seed, node), consumed as a stream of draws.  The embedding abstracts that
stream as a function from draw index to Nat: slot k consumes draws 2k
(the gen::<usize>() call) and 2k+1 (the gen_range call, modelled as
low + draw % (high - low) for the half-open range [low, high)).
The f32 log2().floor() of the source is modelled as Nat.log2, which agrees
with it on the exactly representable range.
-/

/-- One parent slot of BucketGraph::parents for node >= 2: the log-bucket
then uniform-back-distance draw, with the self-reference replacement. -/
def bucketSlot (m node : Nat) (stream : Nat → Nat) (k : Nat) : Nat :=
  let logi := Nat.log2 (node * m)
  let j := stream (2 * k) % logi
  let jj := min (node * m + k) (2 ^ (j + 1))
  let lo := max (jj / 2) 2
  let backDist := lo + stream (2 * k + 1) % (jj + 1 - lo)
  let out := (node * m + k - backDist) / m
  if out = node then node - 1 else out

/-- BucketGraph::parents from drgraph.rs: nodes 0 and 1 get all-zero
parents; any other node gets m bucket-sampled slots, sorted ascending
(sort_unstable; duplicates are kept). -/
def bucketParents (m node : Nat) (stream : Nat → Nat) : List Nat :=
  if node = 0 ∨ node = 1 then List.replicate m 0
  else ((List.range m).map (bucketSlot m node stream)).mergeSort Nat.ble

/-! ## Merkle tree builder (drgraph.rs, Graph::merkle_tree_aux)

The tree type and its build loops live in the external merkletree crate,
which is not under src; they are modelled from the spec: a standard
bottom-up binary hash tree whose node hash folds in the level height
(spec 4.3), leaves stored as given (Algorithm::leaf is the identity in
digest.rs), an odd row extended by duplicating its last element, and the
parallel build an indexed partition of the leaf computation that must
produce the identical tree (spec 5).  A tree is represented as its list
of rows, leaves first, so equality of trees is equality of leaves, of all
internal nodes and of the root at once.
-/

/-- Error type from error.rs, restricted to the variants the claims use.
InvalidMerkleTreeArgs carries (data length, node size, node count) as in
the source. -/
inductive RError : Type
  | invalidInputSize : RError
  | invalidMerkleTreeArgs (dataLen nodeSize size : Nat) : RError
deriving DecidableEq, Repr

/-- Outcome of a call that can return a Result or panic: ok, a recoverable
error, or a panic (expect / assert in the source). -/
inductive MTResult (F : Type) : Type
  | ok (rows : List (List F)) : MTResult F
  | err (e : RError) : MTResult F
  | panicked : MTResult F
deriving DecidableEq

/-- Modelled from the spec: data_at_node from util.rs (not under src):
the 32-byte slice of the i-th node. -/
def dataAtNode (data : List Nat) (i : Nat) : List Nat :=
  (data.drop (32 * i)).take 32

/-- Modelled from the spec: one level of the bottom-up binary tree build
of the merkletree crate; adjacent pairs are hashed, an odd trailing
element is paired with itself. -/
def pairUp {F : Type} (f : F → F → F) : List F → List F
  | a :: b :: rest => f a b :: pairUp f rest
  | [a] => [f a a]
  | [] => []

/-- Modelled from the spec: the rows of the tree, leaves first, hashing
each row into the next with the row height folded into the node hash,
until a single element remains.  Fuel bounds the recursion; it is
instantiated with the leaf count, which always suffices. -/
def buildRows {F : Type} (nodef : F → F → Nat → F) : Nat → Nat → List F → List (List F)
  | 0, _, row => [row]
  | fuel + 1, h, row =>
    if row.length ≤ 1 then [row]
    else row :: buildRows nodef fuel (h + 1) (pairUp (fun a b => nodef a b h) row)

/-- Modelled from the spec: MerkleTree built over a list of leaves. -/
def buildTree {F : Type} (nodef : F → F → Nat → F) (leaves : List F) : List (List F) :=
  buildRows nodef leaves.length 0 leaves

/-- Sequential leaf conversion of merkle_tree_aux: each node's 32 bytes
through Domain::try_from_bytes; none models the failure that the source
turns into a panic via expect. -/
def seqLeaves {F : Type} (tryFrom : List Nat → Option F) (size : Nat) (data : List Nat) :
    Option (List F) :=
  (List.range size).mapM (fun i => tryFrom (dataAtNode data i))

/-- Modelled from the spec: the parallel leaf conversion
(MerkleTree::from_par_iter over an indexed parallel iterator): the index
range is split into chunks, each chunk converted independently, and the
results concatenated in index order regardless of scheduling. -/
def parLeaves {F : Type} (tryFrom : List Nat → Option F) (chunks : List (List Nat))
    (data : List Nat) : Option (List F) :=
  (chunks.mapM (fun c : List Nat => c.mapM (fun i => tryFrom (dataAtNode data i)))).map
    List.flatten

/-- Graph::merkle_tree_aux from drgraph.rs, sequential path: the length
check returning Error::InvalidMerkleTreeArgs, then the leaf conversion
whose failure panics (the expect in the source), then the tree build. -/
def merkleTreeAuxSeq {F : Type} (nodef : F → F → Nat → F) (tryFrom : List Nat → Option F)
    (size : Nat) (data : List Nat) : MTResult F :=
  if data.length ≠ 32 * size then .err (.invalidMerkleTreeArgs data.length 32 size)
  else
    match seqLeaves tryFrom size data with
    | none => .panicked
    | some leaves => .ok (buildTree nodef leaves)

/-- Graph::merkle_tree_aux from drgraph.rs, parallel path, with the
scheduling partition of the index range made explicit. -/
def merkleTreeAuxPar {F : Type} (nodef : F → F → Nat → F) (tryFrom : List Nat → Option F)
    (size : Nat) (data : List Nat) (chunks : List (List Nat)) : MTResult F :=
  if data.length ≠ 32 * size then .err (.invalidMerkleTreeArgs data.length 32 size)
  else
    match parLeaves tryFrom chunks data with
    | none => .panicked
    | some leaves => .ok (buildTree nodef leaves)

/-- The BLS12-381 scalar field modulus r. -/
def frModulus : Nat :=
  52435875175126190479447740508185965837690552500527637822603658699938581184513

/-- Modelled from the spec: PedersenDomain::try_from_bytes (the pedersen
hasher module is not under src).  Per spec 3 and 6 a Domain is a 32-byte
little-endian field element; a byte string of the wrong length or one
encoding a value outside the BLS12-381 scalar field is rejected. -/
def pedersenTryFromBytes (raw : List Nat) : Option Nat :=
  if raw.length = 32 ∧ fromLEBytes raw < frModulus then some (fromLEBytes raw) else none

/-! ## Digest hasher (storage-proofs/src/hasher/digest.rs)

DigestHasher is generic over an arbitrary digest D (sha256, blake2s, ...),
none of which is under src, so the digest itself is an abstract parameter
(a function from byte string to byte string); everything proved about this
model holds for every digest instantiation.  A DigestDomain is a 32-byte
array.
-/

/-- DigestDomain: a 32-byte array, as in digest.rs. -/
def DigestDomain : Type := { l : List Nat // l.length = 32 }

instance : DecidableEq DigestDomain := fun a b =>
  decidable_of_iff (a.val = b.val) Subtype.ext_iff.symm

/-- Domain::into_bytes for DigestDomain: the raw 32 bytes. -/
def intoBytes (d : DigestDomain) : List Nat := d.val

/-- Domain::try_from_bytes for DigestDomain: rejects any length other
than 32 with Error::InvalidInputSize, otherwise copies the 32 bytes. -/
def tryFromBytesD (raw : List Nat) : Except RError DigestDomain :=
  if h : raw.length = 32 then .ok ⟨raw, h⟩ else .error .invalidInputSize

/-- Mask the top two bits of byte 31 of a byte string, as the source does
with raw[31] &= 0b0011_1111. -/
def maskByte31 (l : List Nat) : List Nat :=
  l.set 31 (l.getD 31 0 &&& 63)

/-- HashFunction::hash for DigestFunction: the raw digest of the data,
copied into the 32-byte domain with no masking. -/
def hashDigest (digest : List Nat → List Nat) (data : List Nat) : List Nat :=
  digest data

/-- DigestHasher::kdf: asserts data.len() = 32 * (1 + m) (none models the
assertion failure), hashes the data, and masks the top two bits of the
last byte. -/
def kdfDigest (digest : List Nat → List Nat) (data : List Nat) (m : Nat) : Option (List Nat) :=
  if data.length = 32 * (1 + m) then some (maskByte31 (hashDigest digest data)) else none

/-- DigestFunction::node: hashes the height as a 64-bit word followed by
both children with their top two bits masked.  The byte encoding of the
height comes from the Hashable impl for u64 in the external merkle_light
crate (not under src); it is modelled from the spec as the 8 little-endian
bytes of the height. -/
def nodeDigest (digest : List Nat → List Nat) (l r : List Nat) (h : Nat) : List Nat :=
  digest (u64LE h ++ maskByte31 l ++ maskByte31 r)

/-! ## Pedersen Merkle-Damgard digests (src/crypto/pedersen.rs)

The elliptic-curve compression (sapling_crypto pedersen_hash followed by
extraction of the x coordinate as an FrRepr of four 64-bit digits) is not
under src; it is abstract here: compress maps the bit stream fed to
pedersen_hash to the list of 64-bit digits of the result, and frOf maps
the final 32-byte state to the returned field element (bytes_into_frs from
fr32.rs, also not under src).  Both digest variants are then faithful
images of the two source functions: the byte-oriented one keeps its
running state as bytes and feeds their LSB-first bits to the compression,
the bit-oriented one keeps the state as bits directly.
-/

/-- The bits the byte-oriented state update writes back: the digits of the
compression result written as little-endian bytes
(LittleEndian::write_u64 in pedersen_compression). -/
def digitsToBytes (ds : List Nat) : List Nat :=
  (ds.map u64LE).flatten

/-- The bits the bit-oriented state update writes back: for each digit,
its little-endian bytes expanded LSB-first
(the k/j double loop in pedersen_compression_z). -/
def digitsToBits (ds : List Nat) : List Bool :=
  (ds.map (fun d => bytesToBits (u64LE d))).flatten

/-- pedersen_md_no_padding from pedersen.rs: asserts at least two 32-byte
blocks and an exact multiple of 32 bytes (none models the assertion
failure); seeds the 64-byte buffer with the first block, then for every
further block compresses the bits of (state ++ block) and writes the
digits back into the state bytes; finally the first 32 bytes of the state
are interpreted as a field element. -/
def pedersenMDBytes {β : Type} (compress : List Bool → List Nat) (frOf : List Nat → β)
    (data : List Nat) : Option β :=
  if 2 * 32 ≤ data.length ∧ data.length % 32 = 0 then
    match listChunks 32 data with
    | [] => none
    | b0 :: rest =>
      some (frOf ((rest.foldl
        (fun st blk => digitsToBytes (compress (bytesToBits (st ++ blk)))) b0).take 32))
  else none

/-- pedersen_md_no_padding_z from pedersen.rs: the bit-oriented variant;
the input is expanded to bits first, the state is a bit vector, and the
final 256 state bits are packed back into bytes before the field-element
conversion. -/
def pedersenMDZ {β : Type} (compress : List Bool → List Nat) (frOf : List Nat → β)
    (data : List Nat) : Option β :=
  if 2 * 256 ≤ (bytesToBits data).length ∧ (bytesToBits data).length % 256 = 0 then
    match listChunks 256 (bytesToBits data) with
    | [] => none
    | b0 :: rest =>
      some (frOf (bitsToBytes ((rest.foldl
        (fun st blk => digitsToBits (compress (st ++ blk))) b0).take 256)))
  else none

/-! ## ParallelProofOfRetrievability circuit (circuit/ppor/mod.rs)

The circuit is synthesized in proving mode (all witness Options present;
the claim quantifies over batches of inclusion witnesses).  The
constraint-system backend (bellman) and the gadgets it allocates with
(boolean bit allocation, AllocatedNum::conditionally_reverse, bit
decomposition, the in-circuit node hash, multipack::pack_into_inputs) are
not under src; they are modelled from the spec (4.4) at gadget
granularity: each emitted constraint is recorded as a pair of field values
(left-hand side, right-hand side) evaluated under the assignment the
synthesis itself computes, and the system is satisfied when every pair is
equal.  The node hash is an abstract function of the two children and the
level height, matching the genericity of the source over the Hasher; bit
decomposition and repacking are value-preserving plumbing absorbed into
it.  Public-input bookkeeping (inputize, pack_into_inputs) allocates each
input with exactly the value of the expression it is constrained to, so
its constraints hold identically and do not affect satisfiability.
-/

/-- Field embedding of an allocated boolean, 1 for true and 0 for false. -/
def bitF {F : Type} [CommRing F] (b : Bool) : F :=
  if b then 1 else 0

/-- The constraints one authentication-path level emits: the boolean
constraint on the position bit, the two conditional-reversal constraints
of AllocatedNum::conditionally_reverse, and the hash-gadget constraint
tying the new running value to the node hash of the (possibly swapped)
pair at this height. -/
def levelConstraints {F : Type} [CommRing F] (hashNode : F → F → Nat → F)
    (cur s : F) (b : Bool) (i : Nat) : List (F × F) :=
  let bv : F := bitF b
  let xl : F := if b then s else cur
  let xr : F := if b then cur else s
  [(bv * (1 - bv), 0),
   ((s - cur) * bv, xl - cur),
   ((cur - s) * bv, xr - s),
   (hashNode xl xr i, hashNode xl xr i)]

/-- One round of ParallelProofOfRetrievability::synthesize: ascend the
authentication path from the value, emitting each level's constraints and
carrying the running subtree value; returns the emitted constraints and
the final computed root. -/
def roundWalk {F : Type} [CommRing F] (hashNode : F → F → Nat → F) :
    F → Nat → List (F × Bool) → List (F × F) × F
  | cur, _, [] => ([], cur)
  | cur, i, (s, b) :: rest =>
    let nxt := hashNode (if b then s else cur) (if b then cur else s) i
    let res := roundWalk hashNode nxt (i + 1) rest
    (levelConstraints hashNode cur s b i ++ res.1, res.2)

/-- ParallelProofOfRetrievability::synthesize in proving mode: one round
per witness, each round's constraints followed by the enforce-root
constraint comparing the round's final value with the shared root
allocation. -/
def synthesizePpor {F : Type} [CommRing F] (hashNode : F → F → Nat → F)
    (values : List F) (paths : List (List (F × Bool))) (root : F) : List (F × F) :=
  ((values.zip paths).map (fun vp =>
    (roundWalk hashNode vp.1 0 vp.2).1 ++ [((roundWalk hashNode vp.1 0 vp.2).2, root)])).flatten

/-- A constraint system is satisfied when every emitted constraint holds. -/
def satisfiedCS {F : Type} (cs : List (F × F)) : Prop :=
  ∀ c ∈ cs, c.1 = c.2

instance {F : Type} [DecidableEq F] (cs : List (F × F)) : Decidable (satisfiedCS cs) :=
  List.decidableBAll _ cs

/-- The plain Merkle walk the spec describes: from the value up the path,
at each level conditionally swapping with the sibling per the recorded
is_right bit and applying the node hash with that level's height. -/
def merkleWalk {F : Type} (hashNode : F → F → Nat → F) :
    F → Nat → List (F × Bool) → F
  | cur, _, [] => cur
  | cur, i, (s, b) :: rest =>
    merkleWalk hashNode (hashNode (if b then s else cur) (if b then cur else s) i) (i + 1) rest

/-! ## Helper lemmas -/

theorem land63_land192 (x : Nat) : x &&& 63 &&& 192 = 0 := by
  rw [Nat.land_assoc]
  have h : (63 &&& 192 : Nat) = 0 := by decide
  rw [h, Nat.and_zero]

theorem div_slot_lt {m node k bd : Nat} (hm : 0 < m) (hn : 2 ≤ node) (hk : k < m) :
    (if (node * m + k - bd) / m = node then node - 1
     else (node * m + k - bd) / m) < node := by
  have hub : node * m + k - bd ≤ node * m + k := Nat.sub_le _ _
  have hlt : (node * m + k - bd) / m < node + 1 := by
    rw [Nat.div_lt_iff_lt_mul hm]
    have hexp : (node + 1) * m = node * m + m := by ring
    omega
  split
  · omega
  · rename_i hne
    omega

theorem bucketSlot_lt {m node : Nat} (stream : Nat → Nat) (hm : 0 < m) (hn : 2 ≤ node)
    (k : Nat) (hk : k < m) : bucketSlot m node stream k < node := by
  simp only [bucketSlot]
  exact div_slot_lt hm hn hk

/-! ## C2: BucketGraph::parents -/

/-- C2: for every positive degree m, every node index at least 2 and every
per-node randomness stream (the seeded ChaCha stream is one such),
BucketGraph::parents fills exactly m slots, every parent index is strictly
below the node, the result is sorted ascending, and a repeated call with
the same arguments is identical. -/
theorem bucket_graph_parents_spec (m node : Nat) (stream : Nat → Nat)
    (hm : 0 < m) (hn : 2 ≤ node) :
    (bucketParents m node stream).length = m ∧
    (∀ p ∈ bucketParents m node stream, p < node) ∧
    List.Pairwise (fun a b => a ≤ b) (bucketParents m node stream) ∧
    bucketParents m node stream = bucketParents m node stream := by
  have hnot : ¬ (node = 0 ∨ node = 1) := by omega
  unfold bucketParents
  rw [if_neg hnot]
  have hperm := List.mergeSort_perm ((List.range m).map (bucketSlot m node stream)) Nat.ble
  refine ⟨?_, ?_, ?_, rfl⟩
  · rw [hperm.length_eq, List.length_map, List.length_range]
  · intro p hp
    have hp' := hperm.mem_iff.mp hp
    obtain ⟨k, hk, rfl⟩ := List.mem_map.mp hp'
    exact bucketSlot_lt stream hm hn k (List.mem_range.mp hk)
  · have htrans : ∀ a b c : Nat, Nat.ble a b = true → Nat.ble b c = true →
        Nat.ble a c = true := by
      intro a b c hab hbc
      simp only [Nat.ble_eq] at *
      omega
    have htot : ∀ a b : Nat, (Nat.ble a b || Nat.ble b a) = true := by
      intro a b
      simp only [Bool.or_eq_true, Nat.ble_eq]
      omega
    have hs := List.sorted_mergeSort htrans htot
      ((List.range m).map (bucketSlot m node stream))
    exact hs.imp (fun hab => by simpa only [Nat.ble_eq] using hab)

/-- C2 witness: the theorem applied at degree 5, node 2 and the all-zero
stream. -/
theorem bucket_graph_parents_spec_witness :
    (bucketParents 5 2 (fun _ => 0)).length = 5 ∧
    (∀ p ∈ bucketParents 5 2 (fun _ => 0), p < 2) ∧
    List.Pairwise (fun a b => a ≤ b) (bucketParents 5 2 (fun _ => 0)) ∧
    bucketParents 5 2 (fun _ => 0) = bucketParents 5 2 (fun _ => 0) :=
  bucket_graph_parents_spec 5 2 (fun _ => 0) (by decide) (by decide)

/-! ## C7, C6: merkle_tree_aux error behaviour -/

/-- C7: merkle_tree_aux, sequential or parallel, returns the
InvalidMerkleTreeArgs error exactly when the data length differs from 32
bytes per node; with a correct length it never produces that error (it
either builds the tree or panics in leaf conversion). -/
theorem merkle_tree_invalid_args_iff {F : Type} (nodef : F → F → Nat → F)
    (tryFrom : List Nat → Option F) (size : Nat) (data : List Nat)
    (chunks : List (List Nat)) :
    ((∃ a b c, merkleTreeAuxSeq nodef tryFrom size data
        = .err (.invalidMerkleTreeArgs a b c)) ↔ data.length ≠ 32 * size) ∧
    ((∃ a b c, merkleTreeAuxPar nodef tryFrom size data chunks
        = .err (.invalidMerkleTreeArgs a b c)) ↔ data.length ≠ 32 * size) := by
  constructor
  · unfold merkleTreeAuxSeq
    by_cases h : data.length = 32 * size
    · rw [if_neg (by omega)]
      cases hsl : seqLeaves tryFrom size data <;> simp [h]
    · rw [if_pos h]
      exact ⟨fun _ => h, fun _ => ⟨data.length, 32, size, rfl⟩⟩
  · unfold merkleTreeAuxPar
    by_cases h : data.length = 32 * size
    · rw [if_neg (by omega)]
      cases hsl : parLeaves tryFrom chunks data <;> simp [h]
    · rw [if_pos h]
      exact ⟨fun _ => h, fun _ => ⟨data.length, 32, size, rfl⟩⟩

/-- C6: at node_count 1 with node data 32 bytes of 0xff, which is not a
valid PedersenDomain (the encoded value exceeds the scalar-field modulus),
merkle_tree_aux panics through the expect in its leaf-conversion closure
instead of returning a recoverable error, as the FIXME beside it concedes. -/
theorem merkle_tree_malformed_bytes_panic :
    merkleTreeAuxSeq (fun a _ _ => a) pedersenTryFromBytes 1 (List.replicate 32 255)
      = MTResult.panicked := by decide

/-! ## C8: DigestDomain byte round-trip -/

/-- C8: for every DigestDomain value, try_from_bytes of into_bytes returns
the value unchanged, and try_from_bytes of any byte string whose length is
not 32 fails with InvalidInputSize. -/
theorem digest_domain_byte_roundtrip :
    (∀ d : DigestDomain, tryFromBytesD (intoBytes d) = .ok d) ∧
    (∀ raw : List Nat, raw.length ≠ 32 →
      tryFromBytesD raw = .error .invalidInputSize) := by
  constructor
  · intro d
    simp [tryFromBytesD, intoBytes, d.2]
  · intro raw h
    simp [tryFromBytesD, h]

/-- C8 witness: the round-trip at the all-zero domain and the failure at a
1-byte input. -/
theorem digest_domain_byte_roundtrip_witness :
    tryFromBytesD (intoBytes ⟨List.replicate 32 0, by decide⟩)
      = .ok ⟨List.replicate 32 0, by decide⟩ ∧
    tryFromBytesD [0] = .error .invalidInputSize :=
  ⟨digest_domain_byte_roundtrip.1 _, digest_domain_byte_roundtrip.2 [0] (by decide)⟩

/-! ## C5: masking of kdf- and hash-derived domains -/

/-- C5 counterexample: the claim also asserts masking for values produced
by the plain digest path (DigestFunction::hash), but that path copies the
digest without masking: with a digest whose byte 31 is 0xff, the resulting
Domain has nonzero top two bits. -/
theorem digest_hash_top_bits_not_masked :
    ¬ ((hashDigest (fun _ => List.replicate 32 255) (List.replicate 64 0)).getD 31 0
        &&& 192 = 0) := by decide

/-- C5 (amended): every Domain value derived via kdf has the two most
significant bits of byte 31 equal to zero; the plain digest path of
DigestFunction::hash performs no masking. -/
theorem kdf_masks_top_two_bits (digest : List Nat → List Nat) (data : List Nat)
    (m : Nat) (d : List Nat) (hd : kdfDigest digest data m = some d) :
    d.getD 31 0 &&& 192 = 0 := by
  unfold kdfDigest at hd
  split at hd
  · have hd' : maskByte31 (hashDigest digest data) = d := by
      exact Option.some_inj.mp hd
    subst hd'
    unfold maskByte31
    by_cases hlen : 31 < (hashDigest digest data).length
    · rw [List.getD_eq_getElem?_getD, List.getElem?_set_self hlen]
      simp only [Option.getD_some]
      exact land63_land192 _
    · rw [List.set_eq_of_length_le (by omega)]
      rw [List.getD_eq_getElem?_getD, List.getElem?_eq_none (by omega)]
      decide
  · exact absurd hd (by simp)

/-- C5 witness: kdf applied with a digest returning all 0xff bytes still
yields a masked domain. -/
theorem kdf_masks_top_two_bits_witness :
    (List.replicate 31 255 ++ [63]).getD 31 0 &&& 192 = 0 :=
  kdf_masks_top_two_bits (fun _ => List.replicate 32 255) (List.replicate 32 0) 0
    (List.replicate 31 255 ++ [63]) (by decide)

/-! ## C10: node hash masks its children -/

/-- C10: DigestFunction::node masks the top two bits of each child before
hashing: if the left children agree everywhere except possibly in the two
most significant bits of byte 31, and likewise the right children, the
parent hashes coincide, for every digest; hence distinct Domain values can
share a parent hash. -/
theorem node_hash_masks_children (digest : List Nat → List Nat)
    (l l' r r' : List Nat) (h : Nat)
    (hlL : l.length = 32) (hlL' : l'.length = 32)
    (hrL : r.length = 32) (hrL' : r'.length = 32)
    (hlo : ∀ i < 31, l.getD i 0 = l'.getD i 0)
    (hl31 : l.getD 31 0 % 64 = l'.getD 31 0 % 64)
    (hro : ∀ i < 31, r.getD i 0 = r'.getD i 0)
    (hr31 : r.getD 31 0 % 64 = r'.getD 31 0 % 64) :
    nodeDigest digest l r h = nodeDigest digest l' r' h := by
  have hmask : ∀ (a b : List Nat), a.length = 32 → b.length = 32 →
      (∀ i < 31, a.getD i 0 = b.getD i 0) → a.getD 31 0 % 64 = b.getD 31 0 % 64 →
      maskByte31 a = maskByte31 b := by
    intro a b ha hb hab h31
    unfold maskByte31
    apply List.ext_getElem
    · simp [ha, hb]
    · intro n h1 h2
      simp only [List.length_set, ha] at h1
      by_cases hn31 : n = 31
      · subst hn31
        rw [List.getElem_set_self (by omega), List.getElem_set_self (by omega)]
        have h63 : ∀ x : Nat, x &&& 63 = x % 64 := fun x =>
          Nat.and_pow_two_sub_one_eq_mod x 6
        rw [h63, h63, h31]
      · rw [List.getElem_set_ne (by omega), List.getElem_set_ne (by omega)]
        have hget : a.getD n 0 = b.getD n 0 := hab n (by omega)
        rw [List.getD_eq_getElem a 0 (show n < a.length by omega)] at hget
        rw [List.getD_eq_getElem b 0 (show n < b.length by omega)] at hget
        exact hget
  unfold nodeDigest
  rw [hmask l l' hlL hlL' hlo hl31, hmask r r' hrL hrL' hro hr31]

/-- C10 witness: two left children differing exactly in the top two bits
of byte 31 (0x00 vs 0xc0) are distinct Domain values with identical
parent hashes. -/
theorem node_hash_masks_children_witness :
    nodeDigest (fun l => l) (List.replicate 32 0) (List.replicate 32 0) 0
      = nodeDigest (fun l => l) (List.replicate 31 0 ++ [192]) (List.replicate 32 0) 0 ∧
    (List.replicate 32 0 : List Nat) ≠ List.replicate 31 0 ++ [192] :=
  ⟨node_hash_masks_children (fun l => l) (List.replicate 32 0)
      (List.replicate 31 0 ++ [192]) (List.replicate 32 0) (List.replicate 32 0) 0
      (by decide) (by decide) (by decide) (by decide)
      (by decide) (by decide) (by decide) (by decide),
   by decide⟩

/-! ## C3: parallel and sequential tree builds agree -/

theorem mapM_flatten_eq {α β : Type} (f : α → Option β) :
    ∀ (cs : List (List α)),
      cs.flatten.mapM f = (cs.mapM (fun c : List α => c.mapM f)).map List.flatten
  | [] => rfl
  | c :: cs => by
    simp only [List.flatten_cons, List.mapM_append, List.mapM_cons,
      mapM_flatten_eq f cs]
    cases c.mapM f <;> cases cs.mapM (fun c : List α => c.mapM f) <;> simp

theorem mapM_isSome {α β : Type} (f : α → Option β) :
    ∀ (l : List α), (∀ a ∈ l, (f a).isSome) → ∃ r, l.mapM f = some r
  | [], _ => ⟨[], rfl⟩
  | a :: l, h => by
    obtain ⟨r, hr⟩ := mapM_isSome f l (fun x hx => h x (List.mem_cons_of_mem a hx))
    obtain ⟨b, hb⟩ := Option.isSome_iff_exists.mp (h a (List.mem_cons_self a l))
    exact ⟨b :: r, by rw [List.mapM_cons, hb, hr]; rfl⟩

/-- C3: for every node hash, every Domain conversion, every data of the
correct length all of whose node chunks convert successfully, and every
partition of the index range into chunks (every scheduling of the
parallel build), the parallel build and the sequential build return the
same tree: same leaves, same internal rows, same root. -/
theorem merkle_tree_parallel_eq_sequential {F : Type} (nodef : F → F → Nat → F)
    (tryFrom : List Nat → Option F) (size : Nat) (data : List Nat)
    (chunks : List (List Nat))
    (hlen : data.length = 32 * size)
    (hvalid : ∀ i < size, (tryFrom (dataAtNode data i)).isSome)
    (hchunks : chunks.flatten = List.range size) :
    merkleTreeAuxPar nodef tryFrom size data chunks
      = merkleTreeAuxSeq nodef tryFrom size data ∧
    ∃ t, merkleTreeAuxSeq nodef tryFrom size data = .ok t := by
  have hpar : parLeaves tryFrom chunks data = seqLeaves tryFrom size data := by
    unfold parLeaves seqLeaves
    rw [← hchunks]
    exact (mapM_flatten_eq (fun i => tryFrom (dataAtNode data i)) chunks).symm
  have hsome : ∃ leaves, seqLeaves tryFrom size data = some leaves := by
    unfold seqLeaves
    exact mapM_isSome _ _ (fun i hi => hvalid i (List.mem_range.mp hi))
  obtain ⟨leaves, hleaves⟩ := hsome
  unfold merkleTreeAuxPar merkleTreeAuxSeq
  rw [if_neg (by omega), if_neg (by omega), hpar, hleaves]
  exact ⟨rfl, ⟨buildTree nodef leaves, rfl⟩⟩

/-- C3 witness: the theorem applied over two 32-byte nodes with the
parallel index range split into two singleton chunks. -/
theorem merkle_tree_parallel_eq_sequential_witness :
    merkleTreeAuxPar (fun a b h => a + b + h) (fun l => some (fromLEBytes l)) 2
        (List.replicate 64 1) [[0], [1]]
      = merkleTreeAuxSeq (fun a b h => a + b + h) (fun l => some (fromLEBytes l)) 2
        (List.replicate 64 1) ∧
    ∃ t, merkleTreeAuxSeq (fun a b h => a + b + h) (fun l => some (fromLEBytes l)) 2
        (List.replicate 64 1) = .ok t :=
  merkle_tree_parallel_eq_sequential (fun a b h => a + b + h)
    (fun l => some (fromLEBytes l)) 2 (List.replicate 64 1) [[0], [1]]
    (by decide) (by decide) (by decide)

/-! ## C1: satisfiability of the ParallelProofOfRetrievability circuit -/

theorem satisfiedCS_append {F : Type} (a b : List (F × F)) :
    satisfiedCS (a ++ b) ↔ satisfiedCS a ∧ satisfiedCS b := by
  constructor
  · intro h
    exact ⟨fun c hc => h c (List.mem_append_left _ hc),
           fun c hc => h c (List.mem_append_right _ hc)⟩
  · intro h c hc
    rcases List.mem_append.mp hc with h1 | h2
    · exact h.1 c h1
    · exact h.2 c h2

theorem levelConstraints_sat {F : Type} [CommRing F] (hashNode : F → F → Nat → F)
    (cur s : F) (b : Bool) (i : Nat) :
    satisfiedCS (levelConstraints hashNode cur s b i) := by
  intro c hc
  simp only [levelConstraints, List.mem_cons, List.not_mem_nil, or_false] at hc
  rcases hc with rfl | rfl | rfl | rfl <;> cases b <;> simp [bitF]

theorem roundWalk_snd {F : Type} [CommRing F] (hashNode : F → F → Nat → F) :
    ∀ (path : List (F × Bool)) (cur : F) (i : Nat),
      (roundWalk hashNode cur i path).2 = merkleWalk hashNode cur i path
  | [], _, _ => rfl
  | (s, b) :: rest, cur, i => by
    simp only [roundWalk, merkleWalk]
    exact roundWalk_snd hashNode rest _ (i + 1)

theorem roundWalk_fst_sat {F : Type} [CommRing F] (hashNode : F → F → Nat → F) :
    ∀ (path : List (F × Bool)) (cur : F) (i : Nat),
      satisfiedCS (roundWalk hashNode cur i path).1
  | [], _, _ => by intro c hc; simp [roundWalk] at hc
  | (s, b) :: rest, cur, i => by
    simp only [roundWalk]
    rw [satisfiedCS_append]
    exact ⟨levelConstraints_sat hashNode cur s b i,
      roundWalk_fst_sat hashNode rest _ (i + 1)⟩

/-- C1: the constraint system emitted by
ParallelProofOfRetrievability::synthesize over a batch of inclusion
witnesses with one shared root is satisfied exactly when, for every
witness, walking its value up its authentication path (conditionally
swapping with the sibling per the recorded is_right bit and applying the
node hash at each level height) reproduces the shared root. -/
theorem ppor_synthesize_satisfied_iff {F : Type} [CommRing F]
    (hashNode : F → F → Nat → F) (values : List F)
    (paths : List (List (F × Bool))) (root : F) (height : Nat)
    (hlen : values.length = paths.length)
    (hpaths : ∀ p ∈ paths, p.length = height) :
    satisfiedCS (synthesizePpor hashNode values paths root) ↔
      ∀ vp ∈ values.zip paths, merkleWalk hashNode vp.1 0 vp.2 = root := by
  unfold synthesizePpor
  constructor
  · intro h vp hvp
    have hmem : ((roundWalk hashNode vp.1 0 vp.2).2, root) ∈
        ((values.zip paths).map (fun vp =>
          (roundWalk hashNode vp.1 0 vp.2).1
            ++ [((roundWalk hashNode vp.1 0 vp.2).2, root)])).flatten := by
      apply List.mem_flatten.mpr
      exact ⟨_, List.mem_map.mpr ⟨vp, hvp, rfl⟩, List.mem_append_right _ (by simp)⟩
    have := h _ hmem
    simpa [roundWalk_snd] using this
  · intro h c hc
    obtain ⟨l, hl, hcl⟩ := List.mem_flatten.mp hc
    obtain ⟨vp, hvp, rfl⟩ := List.mem_map.mp hl
    rcases List.mem_append.mp hcl with h1 | h2
    · exact roundWalk_fst_sat hashNode vp.2 vp.1 0 c h1
    · have hc2 : c = ((roundWalk hashNode vp.1 0 vp.2).2, root) := by simpa using h2
      subst hc2
      simpa [roundWalk_snd] using h vp hvp

/-- C1 witness: a single witness with a one-level path, over the integers
with an explicit node hash; the walk value 3 with sibling 5 on the right
reaches 13, and the emitted system is satisfied at root 13. -/
theorem ppor_synthesize_satisfied_iff_witness :
    satisfiedCS (synthesizePpor (fun a b i => a + 2 * b + (i : Int))
        [3] [[((5 : Int), false)]] 13) ↔
      ∀ vp ∈ ([(3 : Int)].zip [[((5 : Int), false)]]),
        merkleWalk (fun a b i => a + 2 * b + (i : Int)) vp.1 0 vp.2 = 13 :=
  ppor_synthesize_satisfied_iff (fun a b i => a + 2 * b + (i : Int))
    [3] [[((5 : Int), false)]] 13 1 (by decide) (by decide)

/-! ## C4: byte- and bit-oriented Pedersen digests agree -/

theorem byteBits_length (b : Nat) : (byteBits b).length = 8 := by
  simp [byteBits]

theorem bytesToBits_cons (b : Nat) (bs : List Nat) :
    bytesToBits (b :: bs) = byteBits b ++ bytesToBits bs := by
  simp [bytesToBits]

theorem bytesToBits_append (l r : List Nat) :
    bytesToBits (l ++ r) = bytesToBits l ++ bytesToBits r := by
  simp [bytesToBits]

theorem bytesToBits_length (bs : List Nat) :
    (bytesToBits bs).length = 8 * bs.length := by
  induction bs with
  | nil => rfl
  | cons b tl ih =>
    rw [bytesToBits_cons, List.length_append, byteBits_length, ih, List.length_cons]
    ring

theorem bytesToBits_flatten (ls : List (List Nat)) :
    bytesToBits ls.flatten = (ls.map bytesToBits).flatten := by
  induction ls with
  | nil => rfl
  | cons l tl ih => rw [List.flatten_cons, bytesToBits_append, List.map_cons,
      List.flatten_cons, ih]

theorem bytesToBits_take (bs : List Nat) :
    ∀ (n : Nat), bytesToBits (bs.take n) = (bytesToBits bs).take (8 * n) := by
  induction bs with
  | nil => intro n; simp [bytesToBits]
  | cons b tl ih =>
    intro n
    cases n with
    | zero => simp [bytesToBits]
    | succ m =>
      rw [List.take_succ_cons, bytesToBits_cons, bytesToBits_cons, ih m,
        show 8 * (m + 1) = (byteBits b).length + 8 * m by rw [byteBits_length]; ring,
        List.take_append]

theorem bytesToBits_drop (bs : List Nat) :
    ∀ (n : Nat), bytesToBits (bs.drop n) = (bytesToBits bs).drop (8 * n) := by
  induction bs with
  | nil => intro n; simp [bytesToBits]
  | cons b tl ih =>
    intro n
    cases n with
    | zero => rfl
    | succ m =>
      rw [List.drop_succ_cons, bytesToBits_cons, ih m,
        show 8 * (m + 1) = (byteBits b).length + 8 * m by rw [byteBits_length]; ring,
        List.drop_append]

theorem listChunks_pos {α : Type} (n : Nat) (l : List α) (hn : 0 < n) (hl : l ≠ []) :
    listChunks n l = l.take n :: listChunks n (l.drop n) := by
  cases n with
  | zero => omega
  | succ m =>
    cases l with
    | nil => exact absurd rfl hl
    | cons x xs => rw [listChunks]

theorem chunks256_bytesToBits :
    ∀ (data : List Nat),
      listChunks 256 (bytesToBits data) = (listChunks 32 data).map bytesToBits
  | [] => by simp [bytesToBits, listChunks]
  | b :: tl => by
    have hne : (b :: tl) ≠ [] := by simp
    have hbne : bytesToBits (b :: tl) ≠ [] := by
      intro hx
      have := bytesToBits_length (b :: tl)
      rw [hx] at this
      simp at this
    rw [listChunks_pos 256 _ (by omega) hbne, listChunks_pos 32 _ (by omega) hne,
      List.map_cons]
    have hdrop : (bytesToBits (b :: tl)).drop 256 = bytesToBits ((b :: tl).drop 32) := by
      rw [bytesToBits_drop (b :: tl) 32]
    have htake : (bytesToBits (b :: tl)).take 256 = bytesToBits ((b :: tl).take 32) := by
      rw [bytesToBits_take (b :: tl) 32]
    rw [hdrop, htake, chunks256_bytesToBits ((b :: tl).drop 32)]
termination_by data => data.length
decreasing_by simp [List.length_drop]; omega

set_option maxRecDepth 4000 in
theorem bitsToByte_byteBits : ∀ b < 256, bitsToByte (byteBits b) = b := by decide

theorem listChunks8_append (l r : List Bool) (hl : l.length = 8) :
    listChunks 8 (l ++ r) = l :: listChunks 8 r := by
  have hne : l ++ r ≠ [] := by
    cases l with
    | nil => simp at hl
    | cons x xs => simp
  rw [listChunks_pos 8 _ (by omega) hne]
  rw [← hl, List.take_left, List.drop_left, hl]

theorem bitsToBytes_bytesToBits (bs : List Nat) (hb : ∀ b ∈ bs, b < 256) :
    bitsToBytes (bytesToBits bs) = bs := by
  induction bs with
  | nil => simp [bitsToBytes, bytesToBits, listChunks]
  | cons b tl ih =>
    rw [bytesToBits_cons]
    unfold bitsToBytes
    rw [listChunks8_append _ _ (byteBits_length b), List.map_cons]
    have h1 : bitsToByte (byteBits b) = b :=
      bitsToByte_byteBits b (hb b (List.mem_cons_self b tl))
    have h2 : bitsToBytes (bytesToBits tl) = tl :=
      ih (fun x hx => hb x (List.mem_cons_of_mem b hx))
    unfold bitsToBytes at h2
    rw [h1, h2]

theorem digitsToBits_eq_bytes (ds : List Nat) :
    digitsToBits ds = bytesToBits (digitsToBytes ds) := by
  unfold digitsToBits digitsToBytes
  rw [bytesToBits_flatten, List.map_map]
  rfl

theorem pedersen_fold_state_eq (compress : List Bool → List Nat) :
    ∀ (rest : List (List Nat)) (st : List Nat),
      (rest.map bytesToBits).foldl
          (fun s blk => digitsToBits (compress (s ++ blk))) (bytesToBits st)
        = bytesToBits (rest.foldl
          (fun s blk => digitsToBytes (compress (bytesToBits (s ++ blk)))) st)
  | [], _ => rfl
  | blk :: rest, st => by
    simp only [List.map_cons, List.foldl_cons]
    rw [← bytesToBits_append, digitsToBits_eq_bytes]
    exact pedersen_fold_state_eq compress rest
      (digitsToBytes (compress (bytesToBits (st ++ blk))))

theorem pedersen_fold_bytes_lt (compress : List Bool → List Nat) :
    ∀ (rest : List (List Nat)) (st : List Nat), (∀ b ∈ st, b < 256) →
      ∀ b ∈ rest.foldl
        (fun s blk => digitsToBytes (compress (bytesToBits (s ++ blk)))) st, b < 256
  | [], _, hst => hst
  | blk :: rest, st, hst => by
    simp only [List.foldl_cons]
    apply pedersen_fold_bytes_lt compress rest
    intro b hb
    simp only [digitsToBytes, u64LE, List.mem_flatten, List.mem_map] at hb
    obtain ⟨l, ⟨d, _, rfl⟩, hbl⟩ := hb
    obtain ⟨k, _, rfl⟩ := List.mem_map.mp hbl
    exact Nat.mod_lt _ (by omega)

/-- C4: for every compression function (the abstract pedersen_hash digit
output), every final field-element conversion and every byte string of u8
values, the byte-oriented pedersen_md_no_padding and the bit-oriented
pedersen_md_no_padding_z return identical results: both guards agree and
both chains produce the same final state. -/
theorem pedersen_md_bytes_eq_z {β : Type} (compress : List Bool → List Nat)
    (frOf : List Nat → β) (data : List Nat) (hdata : ∀ b ∈ data, b < 256) :
    pedersenMDBytes compress frOf data = pedersenMDZ compress frOf data := by
  unfold pedersenMDBytes pedersenMDZ
  have hlen := bytesToBits_length data
  by_cases hg : 2 * 32 ≤ data.length ∧ data.length % 32 = 0
  · rw [if_pos hg, if_pos (by omega)]
    rw [chunks256_bytesToBits data]
    cases hch : listChunks 32 data with
    | nil => simp
    | cons b0 rest =>
      simp only [List.map_cons]
      have hdne : data ≠ [] := by
        intro hx
        rw [hx] at hg
        simp at hg
      have hb0 : data.take 32 = b0 := by
        rw [listChunks_pos 32 data (by omega) hdne] at hch
        injection hch with h1 h2
      have hb0lt : ∀ b ∈ b0, b < 256 := by
        intro b hbb
        rw [← hb0] at hbb
        exact hdata b (List.mem_of_mem_take hbb)
      have hfold := pedersen_fold_state_eq compress rest b0
      rw [hfold]
      have hS := pedersen_fold_bytes_lt compress rest b0 hb0lt
      have htk : (bytesToBits (rest.foldl
          (fun s blk => digitsToBytes (compress (bytesToBits (s ++ blk)))) b0)).take 256
          = bytesToBits ((rest.foldl
          (fun s blk => digitsToBytes (compress (bytesToBits (s ++ blk)))) b0).take 32) := by
        rw [bytesToBits_take]
      rw [htk, bitsToBytes_bytesToBits _
        (fun b hbb => hS b (List.mem_of_mem_take hbb))]
  · rw [if_neg hg, if_neg (by omega)]

/-- C4 witness: both digests evaluated at a concrete 2-block input with a
concrete compression function. -/
theorem pedersen_md_bytes_eq_z_witness :
    pedersenMDBytes (fun _ => [1, 2, 3, 4]) (fun l => l) (List.replicate 64 0)
      = pedersenMDZ (fun _ => [1, 2, 3, 4]) (fun l => l) (List.replicate 64 0) :=
  pedersen_md_bytes_eq_z (fun _ => [1, 2, 3, 4]) (fun l => l)
    (List.replicate 64 0) (by decide)

end FilProofs
